import Mathlib

/-!
Shallow embedding of `src/BTC_Addresses_Graph.py`: a breadth-limited crawler
that builds a directed weighted graph of bitcoin addresses from a paginated
transaction-history API, using the "haircut" flow-attribution heuristic.

Monetary values are modelled exactly as rationals (the Python source uses
floats); satoshi amounts are naturals, converted by dividing by `10^8`.
JSON-optional fields are `Option`s; Python string truthiness (`if a:`) is
modelled by rejecting both `none` and the empty string.  The network is an
oracle: the page fetcher receives a function from offsets to page contents,
and the crawler receives a function from addresses to `Option (List Tx)`
(`none` models a raising fetch).  Loops whose termination depends on the
oracle are given explicit fuel; quantifying over all fuels covers every
intermediate state of the Python loop.
-/

/-- A transaction input's previous output: optionally carries an address
(field `addr` of `prev_out` in the JSON). -/
structure PrevOut where
  addr : Option String
deriving DecidableEq, Repr

/-- A transaction input (`inputs` list element): optionally carries a
`prev_out` object. -/
structure TxInput where
  prev_out : Option PrevOut
deriving DecidableEq, Repr

/-- A transaction output (`out` list element): optional address and optional
integer value in satoshis (`none` models an absent or null `value`). -/
structure TxOutput where
  addr : Option String
  value : Option Nat
deriving DecidableEq, Repr

/-- A raw transaction: ordered inputs and ordered outputs. -/
structure Tx where
  inputs : List TxInput
  out : List TxOutput
deriving DecidableEq, Repr

/-- Python truthiness of an optional address string: `if a:` keeps the
address only when it is present and non-empty. -/
def resolvedAddr : Option String → Option String
  | none => none
  | some s => if s = "" then none else some s

/-- The resolvable input addresses of a transaction, in order, duplicates
retained (lines 45-49: `prev = i.get("prev_out") or {}; a = prev.get("addr");
if a: inputs.append(a)`). -/
def txInputAddrs (tx : Tx) : List String :=
  tx.inputs.filterMap (fun i => resolvedAddr (i.prev_out.bind PrevOut.addr))

/-- The resolvable positive-value outputs of a transaction, as
(address, value-in-BTC) pairs (lines 51-56: `a = o.get("addr");
val_btc = (o.get("value") or 0) / 1e8; if a and val_btc > 0:
outs.append((a, val_btc))`). -/
def txOuts (tx : Tx) : List (String × ℚ) :=
  tx.out.filterMap (fun o =>
    match resolvedAddr o.addr with
    | none => none
    | some a =>
      let val_btc : ℚ := ((o.value.getD 0 : ℕ) : ℚ) / 100000000
      if 0 < val_btc then some (a, val_btc) else none)

/-- Edges contributed by one transaction (loop body of
`address_edges_from_txs`, lines 44-65): if either the resolvable inputs or
the resolvable outputs are empty the transaction contributes nothing;
otherwise each output value is split evenly over all input occurrences
(`denom = max(1, len(inputs))`). -/
def txEdges (tx : Tx) : List (String × String × ℚ) :=
  let inputs := txInputAddrs tx
  let outs := txOuts tx
  if inputs = [] ∨ outs = [] then []
  else
    let denom : ℕ := max 1 inputs.length
    inputs.flatMap (fun in_a =>
      outs.map (fun p => (in_a, p.1, p.2 / (denom : ℚ))))

/-- `address_edges_from_txs` (lines 38-66): concatenation of each
transaction's edge triples, in order. -/
def address_edges_from_txs (txs : List Tx) : List (String × String × ℚ) :=
  txs.flatMap txEdges

/-! ## Transaction fetcher (`fetch_txs_blockchain_info`, lines 20-36)

The HTTP layer is an oracle `pages : ℕ → List Tx` giving the page the
service returns for a given `offset` (the `limit` sent is the same on every
request of one call, so it is not an oracle argument).  Besides the
transaction list the embedding returns the trace of `(limit, offset)`
request parameters issued, so pagination behaviour is observable.  The
Python `while` loop may diverge for degenerate parameters (`limit_each = 0`
with non-empty pages), so it takes fuel. -/

/-- One step of the pagination loop: while fewer than `max_txs` transactions
are collected, request a page at the current offset, append it, stop if the
page is short, otherwise advance the offset by the page limit. -/
def fetch_loop (pages : ℕ → List Tx) (lim max_txs : ℕ) :
    ℕ → ℕ → List Tx → List (ℕ × ℕ) → List Tx × List (ℕ × ℕ)
  | 0, _, txs, reqs => (txs, reqs)
  | fuel + 1, offset, txs, reqs =>
    if txs.length < max_txs then
      let batch := pages offset
      let txs2 := txs ++ batch
      let reqs2 := reqs ++ [(lim, offset)]
      if batch.length < lim then (txs2, reqs2)
      else fetch_loop pages lim max_txs fuel (offset + lim) txs2 reqs2
    else (txs, reqs)

/-- `fetch_txs_blockchain_info`: page size is `min limit_each 50`
(line 26: `"limit": min(limit_each, 50)`), pagination starts at offset 0,
and the final result is truncated to `max_txs` (line 36: `txs[:max_txs]`).
Returns the transactions together with the request trace. -/
def fetch_txs_blockchain_info (pages : ℕ → List Tx)
    (limit_each max_txs fuel : ℕ) : List Tx × List (ℕ × ℕ) :=
  let lim := min limit_each 50
  let r := fetch_loop pages lim max_txs fuel 0 [] []
  (r.1.take max_txs, r.2)

/-! ## Graph crawler (`crawl_graph`, lines 68-122)

State of the crawl loop.  `nodes` and `gEdges` are the networkx graph's
node and edge sets; the weight stored on a graph edge is always the current
`edge_w` value for that pair, because line 108 rewrites every accumulated
pair each iteration.  `edge_w` and `node_amount` are the `defaultdict`
accumulators, as total functions defaulting to 0; `ewKeys` is the key set
of the `edge_w` dict in insertion order (a `defaultdict` creates a key on
first access).  `fetched`, `warned` and `trace` are ghost event logs:
addresses fetched in order, addresses whose fetch raised, and the
concatenation of all extracted edge batches. -/
structure CrawlState where
  nodes : Finset String
  gEdges : Finset (String × String)
  visited : Finset String
  queue : List (String × ℕ)
  edge_w : String × String → ℚ
  node_amount : String → ℚ
  ewKeys : List (String × String)
  fetched : List String
  warned : List String
  trace : List (String × String × ℚ)

/-- Crawl configuration: `MAX_DEPTH` and `MAX_NODES` (lines 10, 12). -/
structure Config where
  maxDepth : ℕ
  maxNodes : ℕ

/-- `edge_w[(u, v)] += w` on the total-function representation. -/
def bumpW (f : String × String → ℚ) (k : String × String) (w : ℚ) :
    String × String → ℚ :=
  fun p => if p = k then f p + w else f p

/-- `node_amount[a] += w` on the total-function representation. -/
def bumpA (f : String → ℚ) (a : String) (w : ℚ) : String → ℚ :=
  fun x => if x = a then f x + w else f x

/-- Record one extracted edge triple into the accumulators (lines 99-102):
bump the pair weight, bump both endpoints' node amounts, and register the
pair as an `edge_w` key if new. -/
def recordEdge (acc : (String × String → ℚ) × (String → ℚ) × List (String × String))
    (e : String × String × ℚ) :
    (String × String → ℚ) × (String → ℚ) × List (String × String) :=
  (bumpW acc.1 (e.1, e.2.1) e.2.2,
   bumpA (bumpA acc.2.1 e.1 e.2.2) e.2.1 e.2.2,
   if (e.1, e.2.1) ∈ acc.2.2 then acc.2.2 else acc.2.2 ++ [(e.1, e.2.1)])

/-- Lines 81-85: pop `(addr, depth)`, mark `addr` visited and add it as a
graph node (the `fetched` ghost log records the expansion). -/
def markVisited (addr : String) (rest : List (String × ℕ)) (st : CrawlState) :
    CrawlState :=
  { st with queue := rest, visited := insert addr st.visited,
            nodes := insert addr st.nodes, fetched := st.fetched ++ [addr] }

/-- Lines 94-118, after a successful fetch for the address at depth `depth`:
extract the edges, accumulate them (lines 99-105), rewrite every accumulated
pair into the graph adding missing endpoint nodes (lines 108-113), and
enqueue unvisited destination neighbours while the node cap is unmet
(lines 116-118).  `st1.queue` is the remaining frontier `rest`. -/
def crawlExpand (cfg : Config) (depth : ℕ) (st1 : CrawlState)
    (txs : List Tx) : CrawlState :=
  let edges := address_edges_from_txs txs
  let acc := edges.foldl recordEdge (st1.edge_w, st1.node_amount, st1.ewKeys)
  let neigh : List String :=
    if depth < cfg.maxDepth then (edges.map (fun e => e.2.1)).dedup else []
  let nodes2 := acc.2.2.foldl (fun ns k => insert k.2 (insert k.1 ns)) st1.nodes
  let gE2 := acc.2.2.foldl (fun es k => insert k es) st1.gEdges
  let newEntries :=
    (neigh.filter (fun nb => decide (nb ∉ st1.visited ∧ nodes2.card < cfg.maxNodes))).map
      (fun nb => (nb, depth + 1))
  { st1 with edge_w := acc.1, node_amount := acc.2.1, ewKeys := acc.2.2,
             nodes := nodes2, gEdges := gE2, queue := st1.queue ++ newEntries,
             trace := st1.trace ++ edges }

/-- One iteration of the `while` loop body (lines 81-120), for a non-empty
queue.  The fetch oracle returns `none` when `fetch_txs_blockchain_info`
would raise for that address (lines 88-92). -/
def crawlStep (cfg : Config) (fetch : String → Option (List Tx))
    (st : CrawlState) : CrawlState :=
  match st.queue with
  | [] => st
  | (addr, depth) :: rest =>
    if addr ∈ st.visited then { st with queue := rest }
    else
      let st1 := markVisited addr rest st
      match fetch addr with
      | none => { st1 with warned := st1.warned ++ [addr] }
      | some txs => crawlExpand cfg depth st1 txs

/-- The `while q and len(G) < MAX_NODES` loop (line 80), with fuel. -/
def crawlAux (cfg : Config) (fetch : String → Option (List Tx)) :
    ℕ → CrawlState → CrawlState
  | 0, st => st
  | fuel + 1, st =>
    if st.queue ≠ [] ∧ st.nodes.card < cfg.maxNodes then
      crawlAux cfg fetch fuel (crawlStep cfg fetch st)
    else st

/-- Initial crawl state: empty graph, empty accumulators, seed queued at
depth 0 (lines 73-78). -/
def initState (seed : String) : CrawlState :=
  { nodes := ∅, gEdges := ∅, visited := ∅, queue := [(seed, 0)],
    edge_w := fun _ => 0, node_amount := fun _ => 0, ewKeys := [],
    fetched := [], warned := [], trace := [] }

/-- `crawl_graph seed`, run for `fuel` loop iterations (quantifying over all
fuels covers every intermediate state of the Python loop, and any fuel at
least the iteration count gives the final state). -/
def crawl_graph (cfg : Config) (fetch : String → Option (List Tx))
    (seed : String) (fuel : ℕ) : CrawlState :=
  crawlAux cfg fetch fuel (initState seed)

/-! ## Specification vocabulary and concrete scenarios -/

/-- Sum of the individually attributed weights for the ordered pair `p`
among the edge triples `l`. -/
def weightSum (p : String × String) (l : List (String × String × ℚ)) : ℚ :=
  ((l.filter (fun e => decide ((e.1, e.2.1) = p))).map (fun e => e.2.2)).sum

/-- How often `a` is an endpoint of the ordered pair `k` (0, 1, or 2 for a
self-loop): the "counted on both the source and the destination side"
multiplicity. -/
def incidence (a : String) (k : String × String) : ℚ :=
  (if k.1 = a then 1 else 0) + (if k.2 = a then 1 else 0)

/-- Total flow attributed to address `a` by the edge triples `l`, each
triple counting its weight once per endpoint occurrence of `a`. -/
def incSum (a : String) (l : List (String × String × ℚ)) : ℚ :=
  (l.map (fun e => e.2.2 * incidence a (e.1, e.2.1))).sum

/-- Scenario transaction: inputs resolve to `{A}`, outputs are
`(B, 1.0 BTC)` and `(C, 0.5 BTC)` (in satoshis). -/
def txA : Tx :=
  ⟨[⟨some ⟨some "A"⟩⟩],
   [⟨some "B", some 100000000⟩, ⟨some "C", some 50000000⟩]⟩

/-- Scenario transaction: two inputs `{A, D}`, one output `(B, 2.0 BTC)`. -/
def tx2 : Tx :=
  ⟨[⟨some ⟨some "A"⟩⟩, ⟨some ⟨some "D"⟩⟩],
   [⟨some "B", some 200000000⟩]⟩

/-- Scenario fetch oracle: address `A` has the single transaction `txA`;
every other address's fetch raises. -/
def fetchA : String → Option (List Tx) :=
  fun a => if a = "A" then some [txA] else none

/-- A configuration whose node cap is 1. -/
def cfg1 : Config := ⟨0, 1⟩

/-- A configuration with max depth 0 and a roomy node cap. -/
def cfg4 : Config := ⟨0, 10⟩

/-- A crawl state whose graph already holds one node. -/
def stOne : CrawlState := { initState "A" with nodes := {"A"} }

/-! ## Helper lemmas: extractor -/

theorem flatMap_singleton_map {α β : Type} (l : List α) (f : α → β) :
    (l.flatMap fun a => [f a]) = l.map f := by
  induction l with
  | nil => rfl
  | cons x xs ih => simp [List.flatMap_cons, ih]

theorem sum_map_const_q {α : Type} (l : List α) (c : ℚ) :
    (l.map fun _ => c).sum = l.length * c := by
  induction l with
  | nil => simp
  | cons x xs ih => simp [ih]; ring

theorem txEdges_congr (t1 t2 : Tx) (h1 : txInputAddrs t1 = txInputAddrs t2)
    (h2 : txOuts t1 = txOuts t2) : txEdges t1 = txEdges t2 := by
  unfold txEdges
  rw [h1, h2]

/-! ## Claim theorems: edge extractor -/

/-- Claim C2: a transaction whose resolvable input address list has length
`N ≥ 1` (duplicates retained) and whose resolvable positive-value outputs
are exactly `[(b, V)]` yields exactly one edge triple per input address,
each `(input, b, V / N)`, and the emitted weights sum to `V`. -/
theorem single_output_haircut_edges (tx : Tx) (b : String) (V : ℚ)
    (hout : txOuts tx = [(b, V)]) (hin : txInputAddrs tx ≠ []) :
    txEdges tx =
      (txInputAddrs tx).map
        (fun a => (a, b, V / ((txInputAddrs tx).length : ℚ))) ∧
    ((txEdges tx).map (fun e => e.2.2)).sum = V := by
  have hlen : 1 ≤ (txInputAddrs tx).length := by
    cases h : txInputAddrs tx with
    | nil => exact absurd h hin
    | cons x xs => simp [h]
  have hmax : max 1 (txInputAddrs tx).length = (txInputAddrs tx).length :=
    Nat.max_eq_right hlen
  have hne : ((txInputAddrs tx).length : ℚ) ≠ 0 := by
    exact_mod_cast Nat.one_le_iff_ne_zero.mp hlen
  have hEq : txEdges tx =
      (txInputAddrs tx).map
        (fun a => (a, b, V / ((txInputAddrs tx).length : ℚ))) := by
    unfold txEdges
    rw [if_neg (by simp [hout, hin])]
    simp only [hout, hmax, List.map_cons, List.map_nil]
    exact flatMap_singleton_map _ _
  refine ⟨hEq, ?_⟩
  rw [hEq, List.map_map]
  have hsum : ((txInputAddrs tx).map
      ((fun e => e.2.2) ∘ fun a => (a, b, V / ((txInputAddrs tx).length : ℚ)))).sum
      = (txInputAddrs tx).length * (V / ((txInputAddrs tx).length : ℚ)) :=
    sum_map_const_q _ _
  rw [hsum, mul_div_cancel₀ _ hne]

/-- Witness for claim C2: the two-input one-output scenario `{A, D} → (B, 2.0)`
gives edges `A→B` and `D→B`, each of weight 1, summing to 2. -/
theorem single_output_haircut_edges_witness :
    txEdges tx2 =
      (txInputAddrs tx2).map
        (fun a => (a, "B", (2 : ℚ) / ((txInputAddrs tx2).length : ℚ))) ∧
    ((txEdges tx2).map (fun e => e.2.2)).sum = 2 :=
  single_output_haircut_edges tx2 "B" 2
    (by simp [txOuts, tx2, resolvedAddr]; norm_num)
    (by simp [txInputAddrs, tx2, resolvedAddr])

/-- Claim C7: a transaction with no resolvable inputs or no resolvable outputs
emits zero edges, and a zero-valued output is excluded before attribution:
deleting it from the output list does not change the emitted edges. -/
theorem empty_or_zero_value_no_edges (tx : Tx) (ins : List TxInput)
    (pre post : List TxOutput) (o : TxOutput) :
    ((txInputAddrs tx = [] ∨ txOuts tx = []) → txEdges tx = []) ∧
    (o.value.getD 0 = 0 →
      txEdges ⟨ins, pre ++ o :: post⟩ = txEdges ⟨ins, pre ++ post⟩) := by
  constructor
  · intro h
    unfold txEdges
    rw [if_pos h]
  · intro h
    apply txEdges_congr
    · rfl
    · unfold txOuts
      simp only [List.filterMap_append, List.filterMap_cons]
      cases ha : resolvedAddr o.addr with
      | none => simp
      | some a =>
        have hv : ¬ (0 : ℚ) < ((o.value.getD 0 : ℕ) : ℚ) / 100000000 := by
          rw [h]; norm_num
        simp [hv]

/-- Witness for claim C7: a transaction with no inputs emits no edges, and dropping
an explicit zero-valued output from `txA` leaves its edges unchanged. -/
theorem empty_or_zero_value_no_edges_witness :
    txEdges ⟨[], [⟨some "B", some 100000000⟩]⟩ = [] ∧
    txEdges ⟨[⟨some ⟨some "A"⟩⟩],
        [⟨some "Z", some 0⟩, ⟨some "B", some 100000000⟩]⟩
      = txEdges ⟨[⟨some ⟨some "A"⟩⟩], [⟨some "B", some 100000000⟩]⟩ :=
  ⟨(empty_or_zero_value_no_edges ⟨[], [⟨some "B", some 100000000⟩]⟩
      [⟨some ⟨some "A"⟩⟩] [] [⟨some "B", some 100000000⟩]
      ⟨some "Z", some 0⟩).1 (Or.inl rfl),
   (empty_or_zero_value_no_edges ⟨[], [⟨some "B", some 100000000⟩]⟩
      [⟨some ⟨some "A"⟩⟩] [] [⟨some "B", some 100000000⟩]
      ⟨some "Z", some 0⟩).2 rfl⟩

/-- Claim C10: the extractor is total on missing optional fields — an input whose
previous-output object is absent or lacks an address is skipped (deleting
it changes nothing, including the haircut denominator), and an output whose
value field is absent is treated as zero and dropped. -/
theorem extractor_skips_missing_fields (ins1 ins2 : List TxInput)
    (outs : List TxOutput) (i : TxInput) (ins : List TxInput)
    (pre post : List TxOutput) (o : TxOutput)
    (hi : i.prev_out = none ∨ i.prev_out.bind PrevOut.addr = none)
    (ho : o.value = none) :
    txEdges ⟨ins1 ++ i :: ins2, outs⟩ = txEdges ⟨ins1 ++ ins2, outs⟩ ∧
    txEdges ⟨ins, pre ++ o :: post⟩ = txEdges ⟨ins, pre ++ post⟩ := by
  have hres : resolvedAddr (i.prev_out.bind PrevOut.addr) = none := by
    rcases hi with h | h
    · rw [h]; rfl
    · rw [h]; rfl
  constructor
  · apply txEdges_congr
    · unfold txInputAddrs
      simp only [List.filterMap_append, List.filterMap_cons, hres]
    · rfl
  · apply txEdges_congr
    · rfl
    · unfold txOuts
      simp only [List.filterMap_append, List.filterMap_cons]
      cases hop : resolvedAddr o.addr with
      | none => simp
      | some a => simp [ho]

/-- Witness for claim C10: an input with no `prev_out` and an output with no `value`
are both ignored in a concrete transaction. -/
theorem extractor_skips_missing_fields_witness :
    txEdges ⟨[⟨some ⟨some "A"⟩⟩] ++ ⟨none⟩ :: [],
        [⟨some "B", some 100000000⟩]⟩
      = txEdges ⟨[⟨some ⟨some "A"⟩⟩] ++ [], [⟨some "B", some 100000000⟩]⟩ ∧
    txEdges ⟨[⟨some ⟨some "A"⟩⟩],
        [] ++ (⟨some "Z", none⟩ : TxOutput) :: [⟨some "B", some 100000000⟩]⟩
      = txEdges ⟨[⟨some ⟨some "A"⟩⟩], [] ++ [⟨some "B", some 100000000⟩]⟩ :=
  extractor_skips_missing_fields [⟨some ⟨some "A"⟩⟩] [] [⟨some "B", some 100000000⟩]
    ⟨none⟩ [⟨some ⟨some "A"⟩⟩] [] [⟨some "B", some 100000000⟩]
    ⟨some "Z", none⟩ (Or.inl rfl) rfl

/-! ## Helper lemmas: fetcher pagination -/

theorem flatten_range_succ (pages : ℕ → List Tx) (offset lim : ℕ)
    (txs : List Tx) (m : ℕ) :
    txs ++ ((List.range (m + 1)).map (fun i => pages (offset + i * lim))).flatten
      = (txs ++ pages offset) ++
        ((List.range m).map (fun i => pages (offset + lim + i * lim))).flatten := by
  rw [List.range_succ_eq_map]
  simp only [List.map_cons, List.map_map, List.flatten_cons, List.append_assoc]
  congr 2
  · norm_num
  · congr 1
    apply List.map_congr_left
    intro i _
    simp only [Function.comp]
    congr 1
    rw [Nat.succ_mul]
    ring

theorem fetch_loop_spec (pages : ℕ → List Tx) (lim max_txs : ℕ) :
    ∀ fuel offset txs reqs, ∃ k,
      (fetch_loop pages lim max_txs fuel offset txs reqs).2
        = reqs ++ (List.range k).map (fun i => (lim, offset + i * lim)) ∧
      (∀ j, j + 1 < k → lim ≤ (pages (offset + j * lim)).length) ∧
      (∀ j, j < k →
        (txs ++ ((List.range j).map
          (fun i => pages (offset + i * lim))).flatten).length < max_txs) := by
  intro fuel
  induction fuel with
  | zero =>
    intro offset txs reqs
    exact ⟨0, by simp [fetch_loop], by omega, by omega⟩
  | succ n ih =>
    intro offset txs reqs
    by_cases h1 : txs.length < max_txs
    · by_cases h2 : (pages offset).length < lim
      · refine ⟨1, ?_, by omega, ?_⟩
        · have h01 : List.range 1 = [0] := rfl
          simp only [fetch_loop, if_pos h1, if_pos h2, h01]
          simp
        · intro j hj
          interval_cases j
          simpa using h1
      · obtain ⟨k, hk, hshort, hlen⟩ :=
          ih (offset + lim) (txs ++ pages offset) (reqs ++ [(lim, offset)])
        refine ⟨k + 1, ?_, ?_, ?_⟩
        · have hmap : (List.range (k + 1)).map (fun i => (lim, offset + i * lim))
              = (lim, offset) :: (List.range k).map (fun i => (lim, offset + lim + i * lim)) := by
            rw [List.range_succ_eq_map]
            simp only [List.map_cons, List.map_map, Nat.mul_zero, Nat.add_zero]
            congr 1
            · simp
            · apply List.map_congr_left
              intro i _
              simp only [Function.comp, Prod.mk.injEq, true_and]
              rw [Nat.succ_mul]
              ring
          simp only [fetch_loop, if_pos h1, if_neg h2]
          rw [hk, hmap]
          simp [List.append_assoc]
        · intro j hj
          cases j with
          | zero => simpa using Nat.le_of_not_lt h2
          | succ m =>
            have h := hshort m (by omega)
            convert h using 3
            ring
        · intro j hj
          cases j with
          | zero => simpa using h1
          | succ m =>
            have h := hlen m (by omega)
            rw [flatten_range_succ]
            exact h
    · refine ⟨0, by simp [fetch_loop, h1], by omega, by omega⟩

/-! ## Claim theorem: fetcher (C9) -/

/-- Claim C9: the fetcher returns at most `max_txs` transactions; every request
uses the fixed page size `min limit_each 50 ≤ 50`; the requests form an
arithmetic progression of offsets `0, lim, 2*lim, ...`; every non-final
request was issued only because the previous page was full
(`≥ lim` records), and every request was issued only while fewer than
`max_txs` transactions had been collected. -/
theorem fetcher_pagination_bounds (pages : ℕ → List Tx)
    (limit_each max_txs fuel : ℕ) :
    (fetch_txs_blockchain_info pages limit_each max_txs fuel).1.length ≤ max_txs ∧
    min limit_each 50 ≤ 50 ∧
    ∃ k, (fetch_txs_blockchain_info pages limit_each max_txs fuel).2
        = (List.range k).map (fun i => (min limit_each 50, i * min limit_each 50)) ∧
      (∀ j, j + 1 < k →
        min limit_each 50 ≤ (pages (j * min limit_each 50)).length) ∧
      (∀ j, j < k →
        (((List.range j).map
          (fun i => pages (i * min limit_each 50))).flatten).length < max_txs) := by
  refine ⟨List.length_take_le _ _, Nat.min_le_right _ _, ?_⟩
  obtain ⟨k, hk, hshort, hlen⟩ :=
    fetch_loop_spec pages (min limit_each 50) max_txs fuel 0 [] []
  refine ⟨k, ?_, ?_, ?_⟩
  · show (fetch_loop pages (min limit_each 50) max_txs fuel 0 [] []).2 = _
    rw [hk]
    simp
  · intro j hj
    simpa using hshort j hj
  · intro j hj
    simpa using hlen j hj

/-- Witness for claim C9: with an always-empty page oracle the fetcher returns no
more than the requested maximum. -/
theorem fetcher_pagination_bounds_witness :
    (fetch_txs_blockchain_info (fun _ => []) 50 200 3).1.length ≤ 200 :=
  (fetcher_pagination_bounds (fun _ => []) 50 200 3).1
theorem crawlStep_nil (cfg : Config) (fetch : String → Option (List Tx))
    (st : CrawlState) (hq : st.queue = []) : crawlStep cfg fetch st = st := by
  unfold crawlStep
  rw [hq]

theorem crawlStep_visited (cfg : Config) (fetch : String → Option (List Tx))
    (st : CrawlState) (addr : String) (depth : ℕ) (rest : List (String × ℕ))
    (hq : st.queue = (addr, depth) :: rest) (hv : addr ∈ st.visited) :
    crawlStep cfg fetch st = { st with queue := rest } := by
  unfold crawlStep
  rw [hq]
  simp [hv]

theorem crawlStep_fail (cfg : Config) (fetch : String → Option (List Tx))
    (st : CrawlState) (addr : String) (depth : ℕ) (rest : List (String × ℕ))
    (hq : st.queue = (addr, depth) :: rest) (hv : addr ∉ st.visited)
    (hf : fetch addr = none) :
    crawlStep cfg fetch st =
      { st with queue := rest, visited := insert addr st.visited,
                nodes := insert addr st.nodes,
                fetched := st.fetched ++ [addr],
                warned := st.warned ++ [addr] } := by
  unfold crawlStep
  rw [hq]
  simp [hv, hf, markVisited]

theorem crawlStep_ok (cfg : Config) (fetch : String → Option (List Tx))
    (st : CrawlState) (addr : String) (depth : ℕ) (rest : List (String × ℕ))
    (txs : List Tx)
    (hq : st.queue = (addr, depth) :: rest) (hv : addr ∉ st.visited)
    (hf : fetch addr = some txs) :
    crawlStep cfg fetch st = crawlExpand cfg depth (markVisited addr rest st) txs := by
  unfold crawlStep
  rw [hq]
  simp [hv, hf]

theorem crawlAux_invariant (cfg : Config) (fetch : String → Option (List Tx))
    (P : CrawlState → Prop)
    (hstep : ∀ st, st.queue ≠ [] → st.nodes.card < cfg.maxNodes →
      P st → P (crawlStep cfg fetch st)) :
    ∀ fuel st, P st → P (crawlAux cfg fetch fuel st) := by
  intro fuel
  induction fuel with
  | zero => intro st h; exact h
  | succ n ih =>
    intro st h
    unfold crawlAux
    by_cases hc : st.queue ≠ [] ∧ st.nodes.card < cfg.maxNodes
    · rw [if_pos hc]
      exact ih _ (hstep st hc.1 hc.2 h)
    · rw [if_neg hc]
      exact h

/-! ## Helper lemmas: accumulator folds -/

theorem weightSum_append (p : String × String) (l1 l2 : List (String × String × ℚ)) :
    weightSum p (l1 ++ l2) = weightSum p l1 + weightSum p l2 := by
  simp [weightSum, List.filter_append]

theorem incSum_append (a : String) (l1 l2 : List (String × String × ℚ)) :
    incSum a (l1 ++ l2) = incSum a l1 + incSum a l2 := by
  simp [incSum]

theorem foldl_recordEdge_fst (edges : List (String × String × ℚ)) :
    ∀ acc p, (edges.foldl recordEdge acc).1 p = acc.1 p + weightSum p edges := by
  induction edges with
  | nil => intro acc p; simp [weightSum]
  | cons e es ih =>
    intro acc p
    rw [List.foldl_cons, ih]
    have hcons : weightSum p (e :: es)
        = (if (e.1, e.2.1) = p then e.2.2 else 0) + weightSum p es := by
      unfold weightSum
      rw [List.filter_cons]
      by_cases h : (e.1, e.2.1) = p
      · simp [h]
      · simp [h]
    rw [hcons]
    show (bumpW acc.1 (e.1, e.2.1) e.2.2) p + weightSum p es = _
    simp only [bumpW]
    by_cases hp : p = (e.1, e.2.1)
    · rw [if_pos hp, if_pos hp.symm]
      ring
    · rw [if_neg hp, if_neg (fun h => hp h.symm)]
      ring

theorem foldl_recordEdge_snd (edges : List (String × String × ℚ)) :
    ∀ acc a, (edges.foldl recordEdge acc).2.1 a = acc.2.1 a + incSum a edges := by
  induction edges with
  | nil => intro acc a; simp [incSum]
  | cons e es ih =>
    intro acc a
    rw [List.foldl_cons, ih]
    have hcons : incSum a (e :: es) = e.2.2 * incidence a (e.1, e.2.1) + incSum a es := by
      simp [incSum]
    rw [hcons]
    show (bumpA (bumpA acc.2.1 e.1 e.2.2) e.2.1 e.2.2) a + incSum a es
        = acc.2.1 a + (e.2.2 * incidence a (e.1, e.2.1) + incSum a es)
    simp only [bumpA, incidence]
    by_cases h1 : a = e.1 <;> by_cases h2 : a = e.2.1
    · rw [if_pos h2, if_pos h1, if_pos h1.symm, if_pos h2.symm]
      ring
    · rw [if_neg h2, if_pos h1, if_pos h1.symm, if_neg (fun h => h2 h.symm)]
      ring
    · rw [if_pos h2, if_neg h1, if_neg (fun h => h1 h.symm), if_pos h2.symm]
      ring
    · rw [if_neg h2, if_neg h1, if_neg (fun h => h1 h.symm), if_neg (fun h => h2 h.symm)]
      ring

theorem recordEdge_keys_mem (acc : (String × String → ℚ) × (String → ℚ) × List (String × String))
    (e : String × String × ℚ) (k : String × String) (hk : k ∈ acc.2.2) :
    k ∈ (recordEdge acc e).2.2 := by
  simp only [recordEdge]
  split
  · exact hk
  · exact List.mem_append_left _ hk

theorem foldl_recordEdge_keys_mono (edges : List (String × String × ℚ)) :
    ∀ acc k, k ∈ acc.2.2 → k ∈ (edges.foldl recordEdge acc).2.2 := by
  induction edges with
  | nil => intro acc k hk; exact hk
  | cons e es ih =>
    intro acc k hk
    rw [List.foldl_cons]
    exact ih _ _ (recordEdge_keys_mem acc e k hk)

theorem foldl_recordEdge_keys_complete (edges : List (String × String × ℚ)) :
    ∀ acc e, e ∈ edges → (e.1, e.2.1) ∈ (edges.foldl recordEdge acc).2.2 := by
  induction edges with
  | nil => intro acc e he; cases he
  | cons x xs ih =>
    intro acc e he
    rw [List.foldl_cons]
    rcases List.mem_cons.mp he with h | h
    · subst h
      apply foldl_recordEdge_keys_mono
      simp only [recordEdge]
      split
      · assumption
      · exact List.mem_append_right _ (List.mem_singleton.mpr rfl)
    · exact ih _ e h

theorem foldl_recordEdge_keys_nodup (edges : List (String × String × ℚ)) :
    ∀ acc, acc.2.2.Nodup → (edges.foldl recordEdge acc).2.2.Nodup := by
  induction edges with
  | nil => intro acc h; exact h
  | cons e es ih =>
    intro acc h
    rw [List.foldl_cons]
    apply ih
    simp only [recordEdge]
    split
    · exact h
    · rw [List.nodup_append]
      exact ⟨h, List.nodup_singleton _, by simpa using fun hmem => by simp_all⟩

theorem foldl_insertPair_nodes_mono (keys : List (String × String)) :
    ∀ (ns : Finset String) (x : String), x ∈ ns →
      x ∈ keys.foldl (fun ns k => insert k.2 (insert k.1 ns)) ns := by
  induction keys with
  | nil => intro ns x hx; exact hx
  | cons k ks ih =>
    intro ns x hx
    rw [List.foldl_cons]
    exact ih _ _ (Finset.mem_insert_of_mem (Finset.mem_insert_of_mem hx))

theorem accInv_step (cfg : Config) (fetch : String → Option (List Tx)) (st : CrawlState)
    (h1 : ∀ p, st.edge_w p = weightSum p st.trace)
    (h2 : ∀ a, st.node_amount a = incSum a st.trace)
    (h3 : st.ewKeys.Nodup)
    (h4 : ∀ e ∈ st.trace, (e.1, e.2.1) ∈ st.ewKeys) :
    (∀ p, (crawlStep cfg fetch st).edge_w p = weightSum p (crawlStep cfg fetch st).trace) ∧
    (∀ a, (crawlStep cfg fetch st).node_amount a = incSum a (crawlStep cfg fetch st).trace) ∧
    (crawlStep cfg fetch st).ewKeys.Nodup ∧
    (∀ e ∈ (crawlStep cfg fetch st).trace, (e.1, e.2.1) ∈ (crawlStep cfg fetch st).ewKeys) := by
  cases hqe : st.queue with
  | nil =>
    rw [crawlStep_nil cfg fetch st hqe]
    exact ⟨h1, h2, h3, h4⟩
  | cons hd rest =>
    obtain ⟨addr, depth⟩ := hd
    by_cases hv : addr ∈ st.visited
    · rw [crawlStep_visited cfg fetch st addr depth rest hqe hv]
      exact ⟨h1, h2, h3, h4⟩
    · cases hf : fetch addr with
      | none =>
        rw [crawlStep_fail cfg fetch st addr depth rest hqe hv hf]
        exact ⟨h1, h2, h3, h4⟩
      | some txs =>
        rw [crawlStep_ok cfg fetch st addr depth rest txs hqe hv hf]
        simp only [crawlExpand, markVisited]
        refine ⟨?_, ?_, ?_, ?_⟩
        · intro p
          rw [foldl_recordEdge_fst, weightSum_append]
          dsimp only
          rw [h1]
        · intro a
          rw [foldl_recordEdge_snd, incSum_append]
          dsimp only
          rw [h2]
        · exact foldl_recordEdge_keys_nodup _ _ h3
        · intro e he
          rcases List.mem_append.mp he with h | h
          · exact foldl_recordEdge_keys_mono _ _ _ (h4 e h)
          · exact foldl_recordEdge_keys_complete _ _ e h

/-! ## Crawl-wide invariants -/

theorem crawl_accInv (cfg : Config) (fetch : String → Option (List Tx))
    (seed : String) (fuel : ℕ) :
    (∀ p, (crawl_graph cfg fetch seed fuel).edge_w p
        = weightSum p (crawl_graph cfg fetch seed fuel).trace) ∧
    (∀ a, (crawl_graph cfg fetch seed fuel).node_amount a
        = incSum a (crawl_graph cfg fetch seed fuel).trace) ∧
    (crawl_graph cfg fetch seed fuel).ewKeys.Nodup ∧
    (∀ e ∈ (crawl_graph cfg fetch seed fuel).trace,
      (e.1, e.2.1) ∈ (crawl_graph cfg fetch seed fuel).ewKeys) := by
  apply crawlAux_invariant cfg fetch
    (fun st => (∀ p, st.edge_w p = weightSum p st.trace) ∧
      (∀ a, st.node_amount a = incSum a st.trace) ∧
      st.ewKeys.Nodup ∧
      (∀ e ∈ st.trace, (e.1, e.2.1) ∈ st.ewKeys))
  · intro st _ _ h
    exact accInv_step cfg fetch st h.1 h.2.1 h.2.2.1 h.2.2.2
  · refine ⟨?_, ?_, ?_, ?_⟩ <;> simp [initState, weightSum, incSum]

theorem sum_map_add_q {α : Type} (l : List α) (f g : α → ℚ) :
    (l.map (fun x => f x + g x)).sum = (l.map f).sum + (l.map g).sum := by
  induction l with
  | nil => simp
  | cons x xs ih => simp [ih]; ring

theorem sum_map_delta (keys : List (String × String)) (x : String × String)
    (c : String × String → ℚ) (hnd : keys.Nodup) (hx : x ∈ keys) :
    (keys.map (fun k => if x = k then c k else 0)).sum = c x := by
  induction keys with
  | nil => cases hx
  | cons k ks ih =>
    rw [List.map_cons, List.sum_cons]
    rcases List.mem_cons.mp hx with h | h
    · rw [if_pos h]
      have hzero : (ks.map (fun k2 => if x = k2 then c k2 else 0)).sum = 0 := by
        apply List.sum_eq_zero
        intro y hy
        obtain ⟨k2, hk2, rfl⟩ := List.mem_map.mp hy
        rw [if_neg]
        intro he
        exact (List.nodup_cons.mp hnd).1 (h ▸ he ▸ hk2)
      rw [hzero, h]
      ring
    · have hxk : ¬ x = k := by
        intro he
        exact (List.nodup_cons.mp hnd).1 (he ▸ h)
      rw [if_neg hxk, ih (List.nodup_cons.mp hnd).2 h]
      ring

theorem keys_weight_conversion (tr : List (String × String × ℚ)) :
    ∀ (keys : List (String × String)), keys.Nodup →
      (∀ e ∈ tr, (e.1, e.2.1) ∈ keys) → ∀ (g : String × String → ℚ),
      (keys.map (fun k => weightSum k tr * g k)).sum
        = (tr.map (fun e => e.2.2 * g (e.1, e.2.1))).sum := by
  induction tr with
  | nil =>
    intro keys _ _ g
    simp [weightSum]
  | cons e es ih =>
    intro keys hnd hmem g
    have hkey : (e.1, e.2.1) ∈ keys := hmem e (List.mem_cons_self e es)
    have hws : ∀ k, weightSum k (e :: es)
        = (if (e.1, e.2.1) = k then e.2.2 else 0) + weightSum k es := by
      intro k
      unfold weightSum
      rw [List.filter_cons]
      by_cases h : (e.1, e.2.1) = k
      · simp [h]
      · simp [h]
    have step1 : (keys.map (fun k => weightSum k (e :: es) * g k)).sum
        = (keys.map (fun k => (if (e.1, e.2.1) = k then e.2.2 * g k else 0)
            + weightSum k es * g k)).sum := by
      apply congrArg
      apply List.map_congr_left
      intro k _
      rw [hws]
      by_cases h : (e.1, e.2.1) = k
      · rw [if_pos h, if_pos h]; ring
      · rw [if_neg h, if_neg h]; ring
    rw [step1, sum_map_add_q,
      sum_map_delta keys (e.1, e.2.1) (fun k => e.2.2 * g k) hnd hkey,
      ih keys hnd (fun x hx => hmem x (List.mem_cons_of_mem e hx)) g,
      List.map_cons, List.sum_cons]

/-- Claim C3: the weight accumulated for an ordered (source, destination)
pair over the whole crawl equals the sum of every individually attributed
weight for that pair across all transactions of all fetched addresses'
batches (`trace` is the concatenation of every extracted batch; the
`edge_w` table is keyed crawl-wide).  Quantifying over `fuel` covers every
point of the loop. -/
theorem edge_weight_accumulates_crawl_wide (cfg : Config)
    (fetch : String → Option (List Tx)) (seed : String) (fuel : ℕ)
    (p : String × String) :
    (crawl_graph cfg fetch seed fuel).edge_w p
      = weightSum p (crawl_graph cfg fetch seed fuel).trace :=
  (crawl_accInv cfg fetch seed fuel).1 p

/-- Claim C4: at every point of the crawl (any `fuel`), the node-amount
accumulator of each address equals the sum over all accumulated edges of
their weight times the address's incidence (source side plus destination
side); and in the seed scenario `inputs {A}, outputs {(B, 1.0), (C, 0.5)}`
the amounts are `A = 1.5, B = 1.0, C = 0.5` with graph edges `A→B` of
weight 1 and `A→C` of weight 0.5. -/
theorem node_amount_eq_incident_weights (cfg : Config)
    (fetch : String → Option (List Tx)) (seed : String) (fuel : ℕ)
    (a : String) :
    ((crawl_graph cfg fetch seed fuel).node_amount a
      = (((crawl_graph cfg fetch seed fuel).ewKeys).map
          (fun k => (crawl_graph cfg fetch seed fuel).edge_w k * incidence a k)).sum) ∧
    (crawl_graph cfg4 fetchA "A" 5).node_amount "A" = 3/2 ∧
    (crawl_graph cfg4 fetchA "A" 5).node_amount "B" = 1 ∧
    (crawl_graph cfg4 fetchA "A" 5).node_amount "C" = 1/2 ∧
    (crawl_graph cfg4 fetchA "A" 5).edge_w ("A", "B") = 1 ∧
    (crawl_graph cfg4 fetchA "A" 5).edge_w ("A", "C") = 1/2 ∧
    ("A", "B") ∈ (crawl_graph cfg4 fetchA "A" 5).gEdges ∧
    ("A", "C") ∈ (crawl_graph cfg4 fetchA "A" 5).gEdges := by
  obtain ⟨h1, h2, h3, h4⟩ := crawl_accInv cfg fetch seed fuel
  refine ⟨?_, ?_, ?_, ?_, ?_, ?_, ?_, ?_⟩
  · rw [h2 a]
    have hmap : (((crawl_graph cfg fetch seed fuel).ewKeys).map
        (fun k => (crawl_graph cfg fetch seed fuel).edge_w k * incidence a k)).sum
        = (((crawl_graph cfg fetch seed fuel).ewKeys).map
            (fun k => weightSum k (crawl_graph cfg fetch seed fuel).trace * incidence a k)).sum := by
      apply congrArg
      apply List.map_congr_left
      intro k _
      rw [h1 k]
    rw [hmap, keys_weight_conversion _ _ h3 h4 (incidence a)]
    rfl
  all_goals
    simp [crawl_graph, crawlAux, crawlStep, initState, fetchA, cfg4, markVisited,
      crawlExpand, address_edges_from_txs, txEdges, txInputAddrs, txOuts,
      resolvedAddr, recordEdge, bumpW, bumpA, txA]
  all_goals norm_num

/-! ## Helper lemmas: visitation and node cap -/

theorem nodup_length_le_card (l : List String) (s : Finset String)
    (hnd : l.Nodup) (hsub : ∀ a ∈ l, a ∈ s) : l.length ≤ s.card := by
  calc l.length = l.toFinset.card := (List.toFinset_card_of_nodup hnd).symm
  _ ≤ s.card := Finset.card_le_card (fun x hx => hsub x (List.mem_toFinset.mp hx))

theorem visInv_step (cfg : Config) (fetch : String → Option (List Tx))
    (st : CrawlState) (hcard : st.nodes.card < cfg.maxNodes)
    (h1 : st.fetched.Nodup) (h2 : ∀ a ∈ st.fetched, a ∈ st.visited)
    (h3 : ∀ a ∈ st.fetched, a ∈ st.nodes)
    (h4 : st.fetched.length ≤ cfg.maxNodes) :
    (crawlStep cfg fetch st).fetched.Nodup ∧
    (∀ a ∈ (crawlStep cfg fetch st).fetched, a ∈ (crawlStep cfg fetch st).visited) ∧
    (∀ a ∈ (crawlStep cfg fetch st).fetched, a ∈ (crawlStep cfg fetch st).nodes) ∧
    (crawlStep cfg fetch st).fetched.length ≤ cfg.maxNodes := by
  have hnotf : ∀ addr, addr ∉ st.visited → addr ∉ st.fetched := by
    intro addr hv hmem
    exact hv (h2 addr hmem)
  have hlen : st.fetched.length < cfg.maxNodes :=
    lt_of_le_of_lt (nodup_length_le_card st.fetched st.nodes h1 h3) hcard
  cases hqe : st.queue with
  | nil =>
    rw [crawlStep_nil cfg fetch st hqe]
    exact ⟨h1, h2, h3, h4⟩
  | cons hd rest =>
    obtain ⟨addr, depth⟩ := hd
    by_cases hv : addr ∈ st.visited
    · rw [crawlStep_visited cfg fetch st addr depth rest hqe hv]
      exact ⟨h1, h2, h3, h4⟩
    · have hnd2 : (st.fetched ++ [addr]).Nodup := by
        rw [List.nodup_append]
        refine ⟨h1, List.nodup_singleton _, ?_⟩
        intro x hx hxa
        rw [List.mem_singleton] at hxa
        exact hnotf addr hv (hxa ▸ hx)
      cases hf : fetch addr with
      | none =>
        rw [crawlStep_fail cfg fetch st addr depth rest hqe hv hf]
        refine ⟨hnd2, ?_, ?_, ?_⟩
        · intro a ha
          rcases List.mem_append.mp ha with h | h
          · exact Finset.mem_insert_of_mem (h2 a h)
          · rw [List.mem_singleton.mp h]
            exact Finset.mem_insert_self _ _
        · intro a ha
          rcases List.mem_append.mp ha with h | h
          · exact Finset.mem_insert_of_mem (h3 a h)
          · rw [List.mem_singleton.mp h]
            exact Finset.mem_insert_self _ _
        · simpa using hlen
      | some txs =>
        rw [crawlStep_ok cfg fetch st addr depth rest txs hqe hv hf]
        simp only [crawlExpand, markVisited]
        refine ⟨hnd2, ?_, ?_, ?_⟩
        · intro a ha
          rcases List.mem_append.mp ha with h | h
          · exact Finset.mem_insert_of_mem (h2 a h)
          · rw [List.mem_singleton.mp h]
            exact Finset.mem_insert_self _ _
        · intro a ha
          apply foldl_insertPair_nodes_mono
          rcases List.mem_append.mp ha with h | h
          · exact Finset.mem_insert_of_mem (h3 a h)
          · rw [List.mem_singleton.mp h]
            exact Finset.mem_insert_self _ _
        · simpa using hlen

theorem crawl_visInv (cfg : Config) (fetch : String → Option (List Tx))
    (seed : String) (fuel : ℕ) :
    (crawl_graph cfg fetch seed fuel).fetched.Nodup ∧
    (∀ a ∈ (crawl_graph cfg fetch seed fuel).fetched,
      a ∈ (crawl_graph cfg fetch seed fuel).visited) ∧
    (∀ a ∈ (crawl_graph cfg fetch seed fuel).fetched,
      a ∈ (crawl_graph cfg fetch seed fuel).nodes) ∧
    (crawl_graph cfg fetch seed fuel).fetched.length ≤ cfg.maxNodes := by
  apply crawlAux_invariant cfg fetch
    (fun st => st.fetched.Nodup ∧ (∀ a ∈ st.fetched, a ∈ st.visited) ∧
      (∀ a ∈ st.fetched, a ∈ st.nodes) ∧ st.fetched.length ≤ cfg.maxNodes)
  · intro st _ hcard h
    exact visInv_step cfg fetch st hcard h.1 h.2.1 h.2.2.1 h.2.2.2
  · exact ⟨List.nodup_nil, by simp [initState], by simp [initState], by simp [initState]⟩

theorem depthInv_step (cfg : Config) (fetch : String → Option (List Tx))
    (st : CrawlState) (h : ∀ p ∈ st.queue, p.2 ≤ cfg.maxDepth) :
    ∀ p ∈ (crawlStep cfg fetch st).queue, p.2 ≤ cfg.maxDepth := by
  cases hqe : st.queue with
  | nil =>
    rw [crawlStep_nil cfg fetch st hqe]
    exact h
  | cons hd rest =>
    obtain ⟨addr, depth⟩ := hd
    have hrest : ∀ p ∈ rest, p.2 ≤ cfg.maxDepth :=
      fun p hp => h p (hqe ▸ List.mem_cons_of_mem _ hp)
    by_cases hv : addr ∈ st.visited
    · rw [crawlStep_visited cfg fetch st addr depth rest hqe hv]
      exact hrest
    · cases hf : fetch addr with
      | none =>
        rw [crawlStep_fail cfg fetch st addr depth rest hqe hv hf]
        exact hrest
      | some txs =>
        rw [crawlStep_ok cfg fetch st addr depth rest txs hqe hv hf]
        simp only [crawlExpand, markVisited]
        intro p hp
        rcases List.mem_append.mp hp with hmem | hmem
        · exact hrest p hmem
        · obtain ⟨nb, hnb, rfl⟩ := List.mem_map.mp hmem
          have hnb2 := List.mem_filter.mp hnb
          by_cases hd0 : depth < cfg.maxDepth
          · simpa using hd0
          · simp only [if_neg hd0] at hnb2
            cases hnb2.1

theorem seedInv_step (cfg : Config) (fetch : String → Option (List Tx))
    (st : CrawlState) (seed : String) (hd0 : cfg.maxDepth = 0)
    (h1 : ∀ p ∈ st.queue, p = (seed, 0))
    (h2 : ∀ a ∈ st.fetched, a = seed) :
    (∀ p ∈ (crawlStep cfg fetch st).queue, p = (seed, 0)) ∧
    (∀ a ∈ (crawlStep cfg fetch st).fetched, a = seed) := by
  cases hqe : st.queue with
  | nil =>
    rw [crawlStep_nil cfg fetch st hqe]
    exact ⟨h1, h2⟩
  | cons hd rest =>
    obtain ⟨addr, depth⟩ := hd
    have hhd : (addr, depth) = (seed, 0) := h1 _ (hqe ▸ List.mem_cons_self _ _)
    have hrest : ∀ p ∈ rest, p = (seed, 0) :=
      fun p hp => h1 p (hqe ▸ List.mem_cons_of_mem _ hp)
    have haddr : addr = seed := congrArg Prod.fst hhd
    have hdep : depth = 0 := congrArg Prod.snd hhd
    have h2b : ∀ a ∈ st.fetched ++ [addr], a = seed := by
      intro a ha
      rcases List.mem_append.mp ha with h | h
      · exact h2 a h
      · rw [List.mem_singleton.mp h]
        exact haddr
    by_cases hv : addr ∈ st.visited
    · rw [crawlStep_visited cfg fetch st addr depth rest hqe hv]
      exact ⟨hrest, h2⟩
    · cases hf : fetch addr with
      | none =>
        rw [crawlStep_fail cfg fetch st addr depth rest hqe hv hf]
        exact ⟨hrest, h2b⟩
      | some txs =>
        rw [crawlStep_ok cfg fetch st addr depth rest txs hqe hv hf]
        simp only [crawlExpand, markVisited]
        have hnomore : ¬ depth < cfg.maxDepth := by omega
        refine ⟨?_, h2b⟩
        intro p hp
        rcases List.mem_append.mp hp with hmem | hmem
        · exact hrest p hmem
        · obtain ⟨nb, hnb, rfl⟩ := List.mem_map.mp hmem
          have hnb2 := List.mem_filter.mp hnb
          simp only [if_neg hnomore] at hnb2
          cases hnb2.1

theorem crawl_depthInv (cfg : Config) (fetch : String → Option (List Tx))
    (seed : String) (fuel : ℕ) :
    ∀ p ∈ (crawl_graph cfg fetch seed fuel).queue, p.2 ≤ cfg.maxDepth := by
  apply crawlAux_invariant cfg fetch (fun st => ∀ p ∈ st.queue, p.2 ≤ cfg.maxDepth)
  · intro st _ _ h
    exact depthInv_step cfg fetch st h
  · intro p hp
    rw [List.mem_singleton.mp hp]
    exact Nat.zero_le _

theorem crawl_seedInv (cfg : Config) (fetch : String → Option (List Tx))
    (seed : String) (fuel : ℕ) (hd0 : cfg.maxDepth = 0) :
    (∀ p ∈ (crawl_graph cfg fetch seed fuel).queue, p = (seed, 0)) ∧
    (∀ a ∈ (crawl_graph cfg fetch seed fuel).fetched, a = seed) := by
  apply crawlAux_invariant cfg fetch
    (fun st => (∀ p ∈ st.queue, p = (seed, 0)) ∧ (∀ a ∈ st.fetched, a = seed))
  · intro st _ _ h
    exact seedInv_step cfg fetch st seed hd0 h.1 h.2
  · constructor
    · intro p hp
      exact List.mem_singleton.mp hp
    · intro a ha
      cases ha


/-- Counterexample to claim C1: with a configured cap of 1 node, the
crawl of the one-transaction scenario returns a graph with 3 nodes — the
edge-write phase (lines 108-112) admits endpoint nodes without checking
`MAX_NODES`, so the node count exceeds the cap. -/
theorem node_cap_exceeded_cex :
    cfg1.maxNodes = 1 ∧ (crawl_graph cfg1 fetchA "A" 5).nodes.card = 3 := by
  refine ⟨rfl, ?_⟩
  simp [crawl_graph, crawlAux, crawlStep, initState, fetchA, cfg1, markVisited,
    crawlExpand, address_edges_from_txs, txEdges, txInputAddrs, txOuts,
    resolvedAddr, recordEdge, bumpW, bumpA, txA]

/-- Claim C1 (amended): the number of addresses expanded (fetched) never
exceeds the configured cap, and once the graph's node count has reached the
cap the loop stops (no further frontier entry is dequeued and nothing more
changes); the returned graph's node count itself may exceed the cap. -/
theorem expansion_bounded_by_node_cap (cfg : Config)
    (fetch : String → Option (List Tx)) (seed : String) (fuel : ℕ) :
    (crawl_graph cfg fetch seed fuel).fetched.length ≤ cfg.maxNodes ∧
    (∀ (st : CrawlState) (fuel2 : ℕ), cfg.maxNodes ≤ st.nodes.card →
      crawlAux cfg fetch fuel2 st = st) := by
  refine ⟨(crawl_visInv cfg fetch seed fuel).2.2.2, ?_⟩
  intro st fuel2 hcard
  cases fuel2 with
  | zero => rfl
  | succ n =>
    unfold crawlAux
    rw [if_neg]
    intro h
    omega

/-- Witness for the amended claim C1 at concrete inputs: a crawl with cap
1 fetches at most one address, and the loop is inert on a state whose graph
already has 1 node. -/
theorem expansion_bounded_by_node_cap_witness :
    (crawl_graph cfg1 fetchA "A" 5).fetched.length ≤ cfg1.maxNodes ∧
    crawlAux cfg1 fetchA 7 stOne = stOne :=
  ⟨(expansion_bounded_by_node_cap cfg1 fetchA "A" 5).1,
   (expansion_bounded_by_node_cap cfg1 fetchA "A" 0).2 stOne 7 (by simp [stOne, cfg1])⟩

/-- Claim C5: no address is expanded (fetched) more than once during a
crawl — the trace of fetched addresses has no duplicates — and every
fetched address is in the visited set (so a later dequeue of it is skipped
without fetching, and the enqueue guard of line 117 refuses it). -/
theorem no_address_expanded_twice (cfg : Config)
    (fetch : String → Option (List Tx)) (seed : String) (fuel : ℕ) :
    (crawl_graph cfg fetch seed fuel).fetched.Nodup ∧
    (∀ a ∈ (crawl_graph cfg fetch seed fuel).fetched,
      a ∈ (crawl_graph cfg fetch seed fuel).visited) :=
  ⟨(crawl_visInv cfg fetch seed fuel).1, (crawl_visInv cfg fetch seed fuel).2.1⟩

/-- Witness for claim C5: in the concrete scenario crawl, the fetched
address `A` is in the visited set. -/
theorem no_address_expanded_twice_witness :
    "A" ∈ (crawl_graph cfg4 fetchA "A" 5).fetched ∧
    "A" ∈ (crawl_graph cfg4 fetchA "A" 5).visited := by
  have hm5 : "A" ∈ (crawl_graph cfg4 fetchA "A" 5).fetched := by
    simp [crawl_graph, crawlAux, crawlStep, initState, fetchA, cfg4, markVisited,
      crawlExpand, address_edges_from_txs, txEdges, txInputAddrs, txOuts,
      resolvedAddr, recordEdge, bumpW, bumpA, txA]
  exact ⟨hm5, (no_address_expanded_twice cfg4 fetchA "A" 5).2 "A" hm5⟩

/-- Claim C6: every entry of the frontier queue — at any point of the
crawl, by quantifying over `fuel` — has depth at most the configured
maximum (the seed enters at depth 0 and neighbours at `depth + 1` only when
`depth < MAX_DEPTH`); and with maximum depth 0 the queue only ever holds
the seed at depth 0 and only the seed is ever fetched, regardless of
discovered edges. -/
theorem enqueued_depth_bounded (cfg : Config)
    (fetch : String → Option (List Tx)) (seed : String) (fuel : ℕ) :
    (∀ p ∈ (crawl_graph cfg fetch seed fuel).queue, p.2 ≤ cfg.maxDepth) ∧
    (cfg.maxDepth = 0 →
      (∀ p ∈ (crawl_graph cfg fetch seed fuel).queue, p = (seed, 0)) ∧
      (∀ a ∈ (crawl_graph cfg fetch seed fuel).fetched, a = seed)) :=
  ⟨crawl_depthInv cfg fetch seed fuel,
   fun h => crawl_seedInv cfg fetch seed fuel h⟩

/-- Witness for claim C6 at concrete inputs: the initial queue entry
`(A, 0)` respects the bound, and in the depth-0 scenario the fetched
address equals the seed. -/
theorem enqueued_depth_bounded_witness :
    ((("A", 0) : String × ℕ) ∈ (crawl_graph cfg4 fetchA "A" 0).queue ∧
      (("A", 0) : String × ℕ).2 ≤ cfg4.maxDepth) ∧
    ("A" ∈ (crawl_graph cfg4 fetchA "A" 5).fetched ∧ "A" = "A") := by
  have hm0 : (("A", 0) : String × ℕ) ∈ (crawl_graph cfg4 fetchA "A" 0).queue := by
    simp [crawl_graph, crawlAux, initState]
  have hm5 : "A" ∈ (crawl_graph cfg4 fetchA "A" 5).fetched := by
    simp [crawl_graph, crawlAux, crawlStep, initState, fetchA, cfg4, markVisited,
      crawlExpand, address_edges_from_txs, txEdges, txInputAddrs, txOuts,
      resolvedAddr, recordEdge, bumpW, bumpA, txA]
  exact ⟨⟨hm0, (enqueued_depth_bounded cfg4 fetchA "A" 0).1 ("A", 0) hm0⟩,
    ⟨hm5, ((enqueued_depth_bounded cfg4 fetchA "A" 5).2 rfl).2 "A" hm5⟩⟩

/-- Claim C8: when the fetch for the front address raises, the crawl
logs a warning (`warned` grows by that address), leaves it marked visited
and present as a graph node, records no edges from its batch and changes no
accumulator, and continues with the next frontier entry. -/
theorem fetch_failure_skips_address (cfg : Config)
    (fetch : String → Option (List Tx)) (st : CrawlState) (addr : String)
    (depth : ℕ) (rest : List (String × ℕ)) (fuel : ℕ)
    (hq : st.queue = (addr, depth) :: rest) (hv : addr ∉ st.visited)
    (hf : fetch addr = none) (hcard : st.nodes.card < cfg.maxNodes) :
    crawlAux cfg fetch (fuel + 1) st
      = crawlAux cfg fetch fuel
          { st with queue := rest, visited := insert addr st.visited,
                    nodes := insert addr st.nodes,
                    fetched := st.fetched ++ [addr],
                    warned := st.warned ++ [addr] } := by
  conv_lhs => rw [crawlAux]
  rw [if_pos ⟨by rw [hq]; simp, hcard⟩,
    crawlStep_fail cfg fetch st addr depth rest hq hv hf]

/-- Witness for claim C8: concrete failing fetch of seed `B` (the oracle
raises for every address but `A`). -/
theorem fetch_failure_skips_address_witness :
    crawlAux cfg4 fetchA 1 (initState "B")
      = crawlAux cfg4 fetchA 0
          { (initState "B") with
            queue := [],
            visited := insert "B" (initState "B").visited,
            nodes := insert "B" (initState "B").nodes,
            fetched := (initState "B").fetched ++ ["B"],
            warned := (initState "B").warned ++ ["B"] } :=
  fetch_failure_skips_address cfg4 fetchA (initState "B") "B" 0 [] 0 rfl
    (by simp [initState]) (by simp [fetchA]) (by simp [initState, cfg4])
